import Mathlib

/-!
Verification of the query-cache plugin (`my_query_cache_plugin.cc`).

The C code implements an in-process LRU result cache: a doubly linked list of
entries (head = most recently used, tail = least recently used) together with
entry-count and byte-size bookkeeping, lazy TTL expiry during lookup, and
substring-based invalidation.

Shallow embedding conventions:
* C byte buffers (`const char *` plus a length) become `List Nat`; the length
  argument of the C API is the list length.
* The intrusive `prev`/`next` pointer chain becomes the position of an entry in
  the context's `entries` list, stored head (most recent) first.
* `time(NULL)` becomes an explicit `now : Nat` argument of each operation that
  reads the clock.  `time_t` subtraction `now - created` only feeds the
  comparison `> ttl`; for `now < created` the C value is negative, hence not
  `> ttl`, matching truncated `Nat` subtraction.
* `malloc` failures are not modelled: every allocation succeeds.  The `int`
  return codes of the C API are kept verbatim.
* `size_t`/`int` counters become `Nat`.  The C code only ever subtracts sizes
  it previously added, so no wrap-around occurs in reachable states.
-/

namespace QueryCachePlugin

/-- A C byte buffer with explicit length: `const char *` + `int len`. -/
abbrev Bytes := List Nat

/-- Embeds `struct CacheEntry`.  The intrusive `next`/`prev` pointers are
represented by the entry's position in `QueryCacheContext.entries`. -/
structure CacheEntry where
  query : Bytes
  query_len : Nat
  result : Bytes
  result_len : Nat
  created_time : Nat
  last_access_time : Nat
  access_count : Nat
deriving DecidableEq

/-- `sizeof(CacheEntry)` — the fixed per-entry overhead the C code charges
against `max_size` (value for the LP64 layout of the struct; the proofs only
rely on it being a fixed positive constant). -/
def sizeofCacheEntry : Nat := 72

/-- Embeds `QueryCacheContext`.  `head`/`tail` become the `entries` list,
head of the list = `ctx->head` (most recently used), last = `ctx->tail`. -/
structure QueryCacheContext where
  entries : List CacheEntry
  entry_count : Nat
  max_entries : Nat
  max_size : Nat
  current_size : Nat
  default_ttl : Nat
deriving DecidableEq

/-- The byte-size charge of one entry:
`entry->query_len + entry->result_len + sizeof(CacheEntry)`. -/
def entrySize (e : CacheEntry) : Nat :=
  e.query_len + e.result_len + sizeofCacheEntry

/-- Aggregate size of a list of entries. -/
def sumSizes (l : List CacheEntry) : Nat :=
  (l.map entrySize).sum

/-- `query_cache_create_context`: empty cache with the compiled-in defaults
`DEFAULT_MAX_ENTRIES = 1000`, `DEFAULT_MAX_SIZE = 64 MiB`,
`DEFAULT_TTL = 3600`. -/
def query_cache_create_context : QueryCacheContext :=
  { entries := []
    entry_count := 0
    max_entries := 1000
    max_size := 1024 * 1024 * 64
    current_size := 0
    default_ttl := 3600 }

/-- The eviction loop at the top of `add_cache_entry`:
`while (count >= max_entries || current_size + esize > max_size)` remove
`ctx->tail` (via `remove_cache_entry`, which also decrements the counters),
or give up when the list is empty.  The loop is modelled by structural
recursion over the REVERSED entry list (least recent first), so that removing
`ctx->tail` is head recursion.  The boolean result records how the loop ended:
`true` = room was made, insert the entry; `false` = the list was emptied and
there is still no space, drop the entry. -/
def evictGo (maxE maxS esize : Nat) :
    List CacheEntry → Nat → Nat → List CacheEntry × Nat × Nat × Bool
  | [], count, size =>
    if count ≥ maxE ∨ size + esize > maxS then ([], count, size, false)
    else ([], count, size, true)
  | tl :: rest, count, size =>
    if count ≥ maxE ∨ size + esize > maxS then
      evictGo maxE maxS esize rest (count - 1) (size - entrySize tl)
    else (tl :: rest, count, size, true)

/-- `add_cache_entry`: make room (evicting from the tail), then either link the
entry at the head and charge the counters, or free the entry and return with
the cache unchanged from the emptied state. -/
def add_cache_entry (ctx : QueryCacheContext) (e : CacheEntry) : QueryCacheContext :=
  match evictGo ctx.max_entries ctx.max_size (entrySize e)
      ctx.entries.reverse ctx.entry_count ctx.current_size with
  | (revl, count, size, ins) =>
    if ins then
      { ctx with entries := e :: revl.reverse
                 entry_count := count + 1
                 current_size := size + entrySize e }
    else
      { ctx with entries := revl.reverse
                 entry_count := count
                 current_size := size }

/-- The expiry test of `find_cache_entry`:
`now - entry->created_time > ctx->default_ttl`. -/
def entryExpired (ttl now : Nat) (e : CacheEntry) : Bool :=
  decide (now - e.created_time > ttl)

/-- The match test of `find_cache_entry`:
`entry->query_len == query_len && memcmp(entry->query, query, query_len) == 0`
(`memcmp` compares the first `query_len` bytes of both buffers). -/
def matchesQuery (e : CacheEntry) (query : Bytes) : Bool :=
  e.query_len == query.length &&
    e.query.take query.length == query.take query.length

/-- The hit bookkeeping of `find_cache_entry`:
`entry->last_access_time = now; entry->access_count++`. -/
def bumpEntry (now : Nat) (e : CacheEntry) : CacheEntry :=
  { e with last_access_time := now, access_count := e.access_count + 1 }

/-- The scan loop of `find_cache_entry`: walk from the head; every expired
entry encountered is removed (`remove_cache_entry`); the first live match
stops the scan.  Returns the (bumped) match if any, the remaining other
entries in order, and the count and total size of the removed expired entries
(the counter updates done by `remove_cache_entry`). -/
def findScan (ttl now : Nat) (query : Bytes) :
    List CacheEntry → Option CacheEntry × List CacheEntry × Nat × Nat
  | [] => (none, [], 0, 0)
  | e :: rest =>
    if entryExpired ttl now e then
      match findScan ttl now query rest with
      | (r, l, c, s) => (r, l, c + 1, s + entrySize e)
    else if matchesQuery e query then
      (some (bumpEntry now e), rest, 0, 0)
    else
      match findScan ttl now query rest with
      | (r, l, c, s) => (r, e :: l, c, s)

/-- `find_cache_entry`: run the scan at the current time; on a hit the matched
entry is unlinked from its position and re-linked at the head (the LRU
promotion). -/
def find_cache_entry (ctx : QueryCacheContext) (now : Nat) (query : Bytes) :
    Option CacheEntry × QueryCacheContext :=
  match findScan ctx.default_ttl now query ctx.entries with
  | (some e, others, rc, rs) =>
    (some e, { ctx with entries := e :: others
                        entry_count := ctx.entry_count - rc
                        current_size := ctx.current_size - rs })
  | (none, others, rc, rs) =>
    (none, { ctx with entries := others
                      entry_count := ctx.entry_count - rc
                      current_size := ctx.current_size - rs })

/-- `query_cache_get`: the C function returns 0 and the entry's `result`
buffer on a hit, 1 on a miss; embedded as an `Option Bytes` plus the mutated
context. -/
def query_cache_get (ctx : QueryCacheContext) (now : Nat) (query : Bytes) :
    Option Bytes × QueryCacheContext :=
  match find_cache_entry ctx now query with
  | (some e, ctx') => (some e.result, ctx')
  | (none, ctx') => (none, ctx')

/-- The entry built by `query_cache_put` before `add_cache_entry`:
copies of the query and result, `created_time = last_access_time = now`,
`access_count = 1`. -/
def mkEntry (now : Nat) (query result : Bytes) : CacheEntry :=
  { query := query
    query_len := query.length
    result := result
    result_len := result.length
    created_time := now
    last_access_time := now
    access_count := 1 }

/-- `query_cache_put`: build the entry and hand it to `add_cache_entry`;
returns 0 (the allocation-failure paths returning 1 are not modelled —
allocations always succeed here). -/
def query_cache_put (ctx : QueryCacheContext) (now : Nat) (query result : Bytes) :
    Nat × QueryCacheContext :=
  (0, add_cache_entry ctx (mkEntry now query result))

/-- View of a byte buffer as the C string `strstr` operates on: the bytes up
to (excluding) the first NUL.  `query_cache_put` stores the key bytes followed
by a terminating `'\x00'`, so `strstr` on `entry->query` sees exactly this
truncation of the stored key. -/
def cString (l : Bytes) : Bytes :=
  l.takeWhile (fun b => b != 0)

/-- `strstr`-style substring search on already-truncated byte lists: true iff
the needle occurs contiguously in the haystack (the empty needle is always
found, as with `strstr`). -/
def strstrHit : Bytes → Bytes → Bool
  | [], needle => needle == []
  | h :: t, needle => needle.isPrefixOf (h :: t) || strstrHit t needle

/-- The removal test of `query_cache_invalidate`:
`strstr(entry->query, table)` on the NUL-terminated stored key. -/
def entryMatchesTable (table : Bytes) (e : CacheEntry) : Bool :=
  strstrHit (cString e.query) (cString table)

/-- The scan loop of `query_cache_invalidate`: remove every entry whose stored
key (as a C string) contains the table name; keep the rest in order.  Returns
the kept entries and the count and total size removed. -/
def invScan (table : Bytes) : List CacheEntry → List CacheEntry × Nat × Nat
  | [] => ([], 0, 0)
  | e :: rest =>
    if entryMatchesTable table e then
      match invScan table rest with
      | (l, c, s) => (l, c + 1, s + entrySize e)
    else
      match invScan table rest with
      | (l, c, s) => (e :: l, c, s)

/-- `query_cache_invalidate`: always returns 0. -/
def query_cache_invalidate (ctx : QueryCacheContext) (table : Bytes) :
    Nat × QueryCacheContext :=
  match invScan table ctx.entries with
  | (kept, rc, rs) =>
    (0, { ctx with entries := kept
                   entry_count := ctx.entry_count - rc
                   current_size := ctx.current_size - rs })

/-- `query_cache_clear`: `remove_cache_entry` on every entry; always
returns 0. -/
def query_cache_clear (ctx : QueryCacheContext) : Nat × QueryCacheContext :=
  (0, { ctx with entries := []
                 entry_count := ctx.entry_count - ctx.entries.length
                 current_size := ctx.current_size - sumSizes ctx.entries })

/-- A possibly-NULL `void *ctx` handle as passed across the plugin API. -/
abbrev CtxHandle := Option QueryCacheContext

/-- `query_cache_destroy_context`: the body is guarded by `if (ctx)`, so a
NULL handle is a checked no-op — defined behavior, modelled as `Except.ok`. -/
def query_cache_destroy_context (h : CtxHandle) : Except Unit Unit :=
  match h with
  | none => Except.ok ()
  | some _ => Except.ok ()

/-- `query_cache_get` at the API boundary: the C code casts and dereferences
`ctx` unconditionally, so a NULL handle is undefined behavior, modelled as
`Except.error`. -/
def query_cache_get_h (h : CtxHandle) (now : Nat) (query : Bytes) :
    Except Unit (Option Bytes × QueryCacheContext) :=
  match h with
  | none => Except.error ()
  | some c => Except.ok (query_cache_get c now query)

/-- `query_cache_put` at the API boundary: dereferences `ctx`
unconditionally. -/
def query_cache_put_h (h : CtxHandle) (now : Nat) (query result : Bytes) :
    Except Unit (Nat × QueryCacheContext) :=
  match h with
  | none => Except.error ()
  | some c => Except.ok (query_cache_put c now query result)

/-- `query_cache_invalidate` at the API boundary: dereferences `ctx`
unconditionally. -/
def query_cache_invalidate_h (h : CtxHandle) (table : Bytes) :
    Except Unit (Nat × QueryCacheContext) :=
  match h with
  | none => Except.error ()
  | some c => Except.ok (query_cache_invalidate c table)

/-- `query_cache_clear` at the API boundary: dereferences `ctx`
unconditionally. -/
def query_cache_clear_h (h : CtxHandle) : Except Unit (Nat × QueryCacheContext) :=
  match h with
  | none => Except.error ()
  | some c => Except.ok (query_cache_clear c)

/-- Bookkeeping consistency: the counters equal what the entry list holds.
Established at context creation and maintained by every operation. -/
def Wf (ctx : QueryCacheContext) : Prop :=
  ctx.entry_count = ctx.entries.length ∧ ctx.current_size = sumSizes ctx.entries

/-- Cache states reachable from a freshly created context through the plugin
operations, with arbitrary clock readings. -/
inductive Reachable : QueryCacheContext → Prop
  | create : Reachable query_cache_create_context
  | get (now : Nat) (query : Bytes) {ctx : QueryCacheContext} :
      Reachable ctx → Reachable (query_cache_get ctx now query).2
  | put (now : Nat) (query result : Bytes) {ctx : QueryCacheContext} :
      Reachable ctx → Reachable (query_cache_put ctx now query result).2
  | invalidate (table : Bytes) {ctx : QueryCacheContext} :
      Reachable ctx → Reachable (query_cache_invalidate ctx table).2
  | clear {ctx : QueryCacheContext} :
      Reachable ctx → Reachable (query_cache_clear ctx).2

/-- "SELECT * FROM orders" as bytes. -/
def ordersQuery : Bytes :=
  [83, 69, 76, 69, 67, 84, 32, 42, 32, 70, 82, 79, 77, 32, 111, 114, 100, 101, 114, 115]

/-- "SELECT * FROM users" as bytes. -/
def usersQuery : Bytes :=
  [83, 69, 76, 69, 67, 84, 32, 42, 32, 70, 82, 79, 77, 32, 117, 115, 101, 114, 115]

/-- "orders" as bytes. -/
def ordersTable : Bytes :=
  [111, 114, 100, 101, 114, 115]

/-- A context with `max_entries = 2` for the LRU scenarios of the spec. -/
def ctxTwo : QueryCacheContext :=
  { query_cache_create_context with max_entries := 2 }

/-- A concrete context holding two entries that are both expired when read at
time 10 with `default_ttl = 3`. -/
def ctxExpiredDemo : QueryCacheContext :=
  { entries := [mkEntry 0 [65] [1], mkEntry 5 [66] [2]]
    entry_count := 2
    max_entries := 10
    max_size := 1000
    current_size := 148
    default_ttl := 3 }

/-- The two-put context used to exercise substring invalidation: the orders
query and the users query both cached at time 0. -/
def ctxOrdersUsers : QueryCacheContext :=
  (query_cache_put (query_cache_put query_cache_create_context
    0 ordersQuery [1]).2 0 usersQuery [2]).2

theorem sumSizes_cons (e : CacheEntry) (l : List CacheEntry) :
    sumSizes (e :: l) = entrySize e + sumSizes l := by
  simp [sumSizes]

theorem sumSizes_reverse (l : List CacheEntry) :
    sumSizes l.reverse = sumSizes l := by
  simp [sumSizes, List.sum_reverse]

theorem evictGo_wf (maxE maxS es : Nat) :
    ∀ (l : List CacheEntry) (c s : Nat),
      c = l.length → s = sumSizes l →
      (evictGo maxE maxS es l c s).2.1 = (evictGo maxE maxS es l c s).1.length ∧
        (evictGo maxE maxS es l c s).2.2.1 = sumSizes (evictGo maxE maxS es l c s).1 := by
  intro l
  induction l with
  | nil =>
    intro c s hc hs
    rw [evictGo]
    split <;> simp [hc, hs, sumSizes]
  | cons tl rest ih =>
    intro c s hc hs
    rw [evictGo]
    split
    · exact ih (c - 1) (s - entrySize tl)
        (by simp [hc]) (by rw [hs, sumSizes_cons]; omega)
    · exact ⟨hc, hs⟩

theorem evictGo_insertBounds (maxE maxS es : Nat) :
    ∀ (l : List CacheEntry) (c s : Nat),
      (evictGo maxE maxS es l c s).2.2.2 = true →
      (evictGo maxE maxS es l c s).2.1 < maxE ∧
        (evictGo maxE maxS es l c s).2.2.1 + es ≤ maxS := by
  intro l
  induction l with
  | nil =>
    intro c s h
    rw [evictGo] at h ⊢
    split at h
    · exact absurd h (by simp)
    · rename_i hcond
      rw [if_neg hcond]
      push_neg at hcond
      exact ⟨hcond.1, hcond.2⟩
  | cons tl rest ih =>
    intro c s h
    rw [evictGo] at h ⊢
    split at h
    · rename_i hcond
      rw [if_pos hcond]
      exact ih (c - 1) (s - entrySize tl) h
    · rename_i hcond
      rw [if_neg hcond]
      push_neg at hcond
      exact ⟨hcond.1, hcond.2⟩

theorem evictGo_dropNil (maxE maxS es : Nat) :
    ∀ (l : List CacheEntry) (c s : Nat),
      (evictGo maxE maxS es l c s).2.2.2 = false →
      (evictGo maxE maxS es l c s).1 = [] := by
  intro l
  induction l with
  | nil =>
    intro c s h
    rw [evictGo] at h ⊢
    split <;> rfl
  | cons tl rest ih =>
    intro c s h
    rw [evictGo] at h ⊢
    split at h
    · rename_i hcond
      rw [if_pos hcond]
      exact ih (c - 1) (s - entrySize tl) h
    · exact absurd h (by simp)

theorem evictGo_insertsOfRoom (maxE maxS es : Nat) (hE : 1 ≤ maxE) (hS : es ≤ maxS) :
    ∀ (l : List CacheEntry) (c s : Nat),
      c = l.length → s = sumSizes l →
      (evictGo maxE maxS es l c s).2.2.2 = true := by
  intro l
  induction l with
  | nil =>
    intro c s hc hs
    rw [evictGo]
    have : ¬(c ≥ maxE ∨ s + es > maxS) := by
      subst hc hs
      simp [sumSizes]
      omega
    rw [if_neg this]
  | cons tl rest ih =>
    intro c s hc hs
    rw [evictGo]
    split
    · exact ih (c - 1) (s - entrySize tl)
        (by simp [hc]) (by rw [hs, sumSizes_cons]; omega)
    · rfl

theorem evictGo_dropsOfTooBig (maxE maxS es : Nat) (hS : maxS < es) :
    ∀ (l : List CacheEntry) (c s : Nat),
      (evictGo maxE maxS es l c s).2.2.2 = false := by
  intro l
  induction l with
  | nil =>
    intro c s
    rw [evictGo]
    rw [if_pos (Or.inr (by omega))]
  | cons tl rest ih =>
    intro c s
    rw [evictGo]
    rw [if_pos (Or.inr (by omega))]
    exact ih (c - 1) (s - entrySize tl)

theorem evictGo_suffix (maxE maxS es : Nat) :
    ∀ (l : List CacheEntry) (c s : Nat),
      ∃ k, (evictGo maxE maxS es l c s).1 = l.drop k := by
  intro l
  induction l with
  | nil =>
    intro c s
    rw [evictGo]
    split <;> exact ⟨0, rfl⟩
  | cons tl rest ih =>
    intro c s
    rw [evictGo]
    split
    · obtain ⟨k, hk⟩ := ih (c - 1) (s - entrySize tl)
      exact ⟨k + 1, hk⟩
    · exact ⟨0, rfl⟩

theorem evictGo_noEvict (maxE maxS es : Nat) (l : List CacheEntry) (c s : Nat)
    (h : ¬(c ≥ maxE ∨ s + es > maxS)) :
    evictGo maxE maxS es l c s = (l, c, s, true) := by
  cases l <;> rw [evictGo] <;> rw [if_neg h]

theorem entrySize_bump (now : Nat) (e : CacheEntry) :
    entrySize (bumpEntry now e) = entrySize e := rfl

theorem findScan_wf_none (ttl now : Nat) (q : Bytes) :
    ∀ (l : List CacheEntry),
      (findScan ttl now q l).1 = none →
      (findScan ttl now q l).2.1.length + (findScan ttl now q l).2.2.1 = l.length ∧
        sumSizes (findScan ttl now q l).2.1 + (findScan ttl now q l).2.2.2 = sumSizes l := by
  intro l
  induction l with
  | nil => intro _; simp [findScan, sumSizes]
  | cons e rest ih =>
    intro hnone
    rcases hrec : findScan ttl now q rest with ⟨r, l', c, s⟩
    cases hE : entryExpired ttl now e
    · cases hM : matchesQuery e q
      · simp only [findScan, hE, hM, hrec, Bool.false_eq_true, if_false] at hnone ⊢
        obtain ⟨ih1, ih2⟩ := ih (by rw [hrec] at *; exact hnone)
        rw [hrec] at ih1 ih2
        simp only at ih1 ih2 ⊢
        constructor
        · simp only [List.length_cons]; omega
        · rw [sumSizes_cons, sumSizes_cons]; omega
      · simp [findScan, hE, hM] at hnone
    · simp only [findScan, hE, if_true] at hnone ⊢
      rw [hrec] at hnone ⊢
      simp only at hnone ⊢
      obtain ⟨ih1, ih2⟩ := ih (by rw [hrec]; exact hnone)
      rw [hrec] at ih1 ih2
      simp only at ih1 ih2
      constructor
      · simp only [List.length_cons]; omega
      · rw [sumSizes_cons]; omega

theorem findScan_wf_some (ttl now : Nat) (q : Bytes) :
    ∀ (l : List CacheEntry) (e : CacheEntry),
      (findScan ttl now q l).1 = some e →
      (findScan ttl now q l).2.1.length + 1 + (findScan ttl now q l).2.2.1 = l.length ∧
        sumSizes (findScan ttl now q l).2.1 + entrySize e + (findScan ttl now q l).2.2.2
          = sumSizes l := by
  intro l
  induction l with
  | nil => intro e h; simp [findScan] at h
  | cons e0 rest ih =>
    intro e hsome
    rcases hrec : findScan ttl now q rest with ⟨r, l', c, s⟩
    cases hE : entryExpired ttl now e0
    · cases hM : matchesQuery e0 q
      · simp only [findScan, hE, hM, Bool.false_eq_true, if_false] at hsome ⊢
        rw [hrec] at hsome ⊢
        simp only at hsome ⊢
        obtain ⟨ih1, ih2⟩ := ih e (by rw [hrec]; exact hsome)
        rw [hrec] at ih1 ih2
        simp only at ih1 ih2
        constructor
        · simp only [List.length_cons]; omega
        · rw [sumSizes_cons, sumSizes_cons]; omega
      · simp only [findScan, hE, hM, Bool.false_eq_true, if_false, if_true] at hsome ⊢
        have hbe : bumpEntry now e0 = e := by injection hsome
        subst hbe
        constructor
        · simp
        · rw [sumSizes_cons, entrySize_bump]; omega
    · simp only [findScan, hE, if_true] at hsome ⊢
      rw [hrec] at hsome ⊢
      simp only at hsome ⊢
      obtain ⟨ih1, ih2⟩ := ih e (by rw [hrec]; exact hsome)
      rw [hrec] at ih1 ih2
      simp only at ih1 ih2
      constructor
      · simp only [List.length_cons]; omega
      · rw [sumSizes_cons]; omega

theorem findScan_none_filter (ttl now : Nat) (q : Bytes) :
    ∀ (l : List CacheEntry),
      (findScan ttl now q l).1 = none →
      (findScan ttl now q l).2.1 = l.filter (fun x => ! entryExpired ttl now x) := by
  intro l
  induction l with
  | nil => intro _; simp [findScan]
  | cons e rest ih =>
    intro hnone
    rcases hrec : findScan ttl now q rest with ⟨r, l', c, s⟩
    cases hE : entryExpired ttl now e
    · cases hM : matchesQuery e q
      · simp only [findScan, hE, hM, Bool.false_eq_true, if_false] at hnone ⊢
        rw [hrec] at hnone ⊢
        simp only at hnone ⊢
        have := ih (by rw [hrec]; exact hnone)
        rw [hrec] at this
        simp only at this
        simp [List.filter_cons, hE, this]
      · simp [findScan, hE, hM] at hnone
    · simp only [findScan, hE, if_true] at hnone ⊢
      rw [hrec] at hnone ⊢
      simp only at hnone ⊢
      have := ih (by rw [hrec]; exact hnone)
      rw [hrec] at this
      simp only at this
      simp [List.filter_cons, hE, this]

theorem findScan_some_split (ttl now : Nat) (q : Bytes) :
    ∀ (l : List CacheEntry) (e : CacheEntry),
      (findScan ttl now q l).1 = some e →
      ∃ pre e₀ suf, l = pre ++ e₀ :: suf ∧
        entryExpired ttl now e₀ = false ∧ matchesQuery e₀ q = true ∧
        e = bumpEntry now e₀ ∧
        (findScan ttl now q l).2.1 =
          pre.filter (fun x => ! entryExpired ttl now x) ++ suf := by
  intro l
  induction l with
  | nil => intro e h; simp [findScan] at h
  | cons e0 rest ih =>
    intro e hsome
    rcases hrec : findScan ttl now q rest with ⟨r, l', c, s⟩
    cases hE : entryExpired ttl now e0
    · cases hM : matchesQuery e0 q
      · simp only [findScan, hE, hM, Bool.false_eq_true, if_false] at hsome ⊢
        rw [hrec] at hsome ⊢
        simp only at hsome ⊢
        obtain ⟨pre, e₀, suf, hsplit, hexp, hmatch, hbump, hres⟩ :=
          ih e (by rw [hrec]; exact hsome)
        rw [hrec] at hres
        simp only at hres
        exact ⟨e0 :: pre, e₀, suf, by simp [hsplit], hexp, hmatch, hbump,
          by simp [List.filter_cons, hE, hres]⟩
      · simp only [findScan, hE, hM, Bool.false_eq_true, if_false, if_true] at hsome ⊢
        have hbe : bumpEntry now e0 = e := by injection hsome
        subst hbe
        exact ⟨[], e0, rest, rfl, hE, hM, rfl, by simp⟩
    · simp only [findScan, hE, if_true] at hsome ⊢
      rw [hrec] at hsome ⊢
      simp only at hsome ⊢
      obtain ⟨pre, e₀, suf, hsplit, hexp, hmatch, hbump, hres⟩ :=
        ih e (by rw [hrec]; exact hsome)
      rw [hrec] at hres
      simp only at hres
      exact ⟨e0 :: pre, e₀, suf, by simp [hsplit], hexp, hmatch, hbump,
        by simp [List.filter_cons, hE, hres]⟩

theorem findScan_none_ofNoMatch (ttl now : Nat) (q : Bytes) :
    ∀ (l : List CacheEntry), (∀ e ∈ l, matchesQuery e q = false) →
      (findScan ttl now q l).1 = none := by
  intro l
  induction l with
  | nil => intro _; simp [findScan]
  | cons e rest ih =>
    intro hnm
    rcases hrec : findScan ttl now q rest with ⟨r, l', c, s⟩
    have hrest : (findScan ttl now q rest).1 = none :=
      ih (fun x hx => hnm x (List.mem_cons_of_mem e hx))
    rw [hrec] at hrest
    simp only at hrest
    cases hE : entryExpired ttl now e
    · have hM : matchesQuery e q = false := hnm e (List.mem_cons_self e rest)
      simp [findScan, hE, hM, hrec, hrest]
    · simp [findScan, hE, hrec, hrest]

theorem invScan_filter (t : Bytes) :
    ∀ (l : List CacheEntry),
      (invScan t l).1 = l.filter (fun e => ! entryMatchesTable t e) := by
  intro l
  induction l with
  | nil => simp [invScan]
  | cons e rest ih =>
    rcases hrec : invScan t rest with ⟨l', c, s⟩
    rw [hrec] at ih
    simp only at ih
    cases hM : entryMatchesTable t e <;>
      simp [invScan, hM, hrec, List.filter_cons, ih]

theorem invScan_wf (t : Bytes) :
    ∀ (l : List CacheEntry),
      (invScan t l).1.length + (invScan t l).2.1 = l.length ∧
        sumSizes (invScan t l).1 + (invScan t l).2.2 = sumSizes l := by
  intro l
  induction l with
  | nil => simp [invScan, sumSizes]
  | cons e rest ih =>
    rcases hrec : invScan t rest with ⟨l', c, s⟩
    rw [hrec] at ih
    simp only at ih
    cases hM : entryMatchesTable t e
    · simp only [invScan, hM, Bool.false_eq_true, if_false, hrec]
      constructor
      · simp only [List.length_cons]; omega
      · rw [sumSizes_cons, sumSizes_cons]; omega
    · simp only [invScan, hM, if_true, hrec]
      constructor
      · simp only [List.length_cons]; omega
      · rw [sumSizes_cons]; omega

theorem mkEntry_notExpired (ttl now : Nat) (q r : Bytes) :
    entryExpired ttl now (mkEntry now q r) = false := by
  simp [entryExpired, mkEntry]

theorem matchesQuery_mkEntry (now : Nat) (q r : Bytes) :
    matchesQuery (mkEntry now q r) q = true := by
  simp [matchesQuery, mkEntry]

theorem entrySize_mkEntry (now : Nat) (q r : Bytes) :
    entrySize (mkEntry now q r) = q.length + r.length + sizeofCacheEntry := rfl

theorem add_preserves (ctx : QueryCacheContext) (e : CacheEntry) (h : Wf ctx) :
    Wf (add_cache_entry ctx e) ∧
      (add_cache_entry ctx e).entry_count ≤ ctx.max_entries ∧
      (add_cache_entry ctx e).current_size ≤ ctx.max_size := by
  obtain ⟨hc, hs⟩ := h
  rcases hev : evictGo ctx.max_entries ctx.max_size (entrySize e)
      ctx.entries.reverse ctx.entry_count ctx.current_size with ⟨revl, c', s', ins⟩
  have hwf := evictGo_wf ctx.max_entries ctx.max_size (entrySize e)
      ctx.entries.reverse ctx.entry_count ctx.current_size
      (by simp [hc]) (by rw [hs, sumSizes_reverse])
  rw [hev] at hwf
  simp only at hwf
  obtain ⟨hwc, hws⟩ := hwf
  cases ins with
  | true =>
    have hb := evictGo_insertBounds ctx.max_entries ctx.max_size (entrySize e)
        ctx.entries.reverse ctx.entry_count ctx.current_size (by rw [hev])
    rw [hev] at hb
    simp only at hb
    simp only [add_cache_entry, hev, if_true]
    refine ⟨⟨?_, ?_⟩, ?_, ?_⟩
    · show c' + 1 = (e :: revl.reverse).length
      simp [hwc]
    · show s' + entrySize e = sumSizes (e :: revl.reverse)
      rw [sumSizes_cons, sumSizes_reverse]
      omega
    · exact hb.1
    · exact hb.2
  | false =>
    have hnil := evictGo_dropNil ctx.max_entries ctx.max_size (entrySize e)
        ctx.entries.reverse ctx.entry_count ctx.current_size (by rw [hev])
    rw [hev] at hnil
    simp only at hnil
    subst hnil
    simp only [List.length_nil, sumSizes] at hwc hws
    simp only [add_cache_entry, hev, Bool.false_eq_true, if_false]
    refine ⟨⟨?_, ?_⟩, ?_, ?_⟩ <;> simp [hwc, hws, sumSizes]

theorem add_config (ctx : QueryCacheContext) (e : CacheEntry) :
    (add_cache_entry ctx e).max_entries = ctx.max_entries ∧
      (add_cache_entry ctx e).max_size = ctx.max_size ∧
      (add_cache_entry ctx e).default_ttl = ctx.default_ttl := by
  rcases hev : evictGo ctx.max_entries ctx.max_size (entrySize e)
      ctx.entries.reverse ctx.entry_count ctx.current_size with ⟨revl, c', s', ins⟩
  cases ins <;> simp [add_cache_entry, hev]

theorem find_preserves (ctx : QueryCacheContext) (now : Nat) (q : Bytes) (h : Wf ctx) :
    Wf (find_cache_entry ctx now q).2 ∧
      (find_cache_entry ctx now q).2.entry_count ≤ ctx.entry_count ∧
      (find_cache_entry ctx now q).2.current_size ≤ ctx.current_size ∧
      (find_cache_entry ctx now q).2.max_entries = ctx.max_entries ∧
      (find_cache_entry ctx now q).2.max_size = ctx.max_size ∧
      (find_cache_entry ctx now q).2.default_ttl = ctx.default_ttl := by
  obtain ⟨hc, hs⟩ := h
  rcases hscan : findScan ctx.default_ttl now q ctx.entries with ⟨r, others, rc, rs⟩
  cases r with
  | none =>
    have hwf := findScan_wf_none ctx.default_ttl now q ctx.entries (by rw [hscan])
    rw [hscan] at hwf
    simp only at hwf
    simp only [find_cache_entry, hscan]
    refine ⟨⟨?_, ?_⟩, ?_, ?_, by simp, by simp, by simp⟩
    · show ctx.entry_count - rc = others.length
      omega
    · show ctx.current_size - rs = sumSizes others
      omega
    · exact Nat.sub_le _ _
    · exact Nat.sub_le _ _
  | some e =>
    have hwf := findScan_wf_some ctx.default_ttl now q ctx.entries e (by rw [hscan])
    rw [hscan] at hwf
    simp only at hwf
    simp only [find_cache_entry, hscan]
    refine ⟨⟨?_, ?_⟩, ?_, ?_, by simp, by simp, by simp⟩
    · show ctx.entry_count - rc = (e :: others).length
      simp only [List.length_cons]
      omega
    · show ctx.current_size - rs = sumSizes (e :: others)
      rw [sumSizes_cons]
      omega
    · exact Nat.sub_le _ _
    · exact Nat.sub_le _ _

theorem get_preserves (ctx : QueryCacheContext) (now : Nat) (q : Bytes) (h : Wf ctx) :
    Wf (query_cache_get ctx now q).2 ∧
      (query_cache_get ctx now q).2.entry_count ≤ ctx.entry_count ∧
      (query_cache_get ctx now q).2.current_size ≤ ctx.current_size ∧
      (query_cache_get ctx now q).2.max_entries = ctx.max_entries ∧
      (query_cache_get ctx now q).2.max_size = ctx.max_size ∧
      (query_cache_get ctx now q).2.default_ttl = ctx.default_ttl := by
  have hfind := find_preserves ctx now q h
  rcases hf : find_cache_entry ctx now q with ⟨r, ctx'⟩
  rw [hf] at hfind
  cases r <;> simpa only [query_cache_get, hf] using hfind

theorem invalidate_preserves (ctx : QueryCacheContext) (t : Bytes) (h : Wf ctx) :
    Wf (query_cache_invalidate ctx t).2 ∧
      (query_cache_invalidate ctx t).2.entry_count ≤ ctx.entry_count ∧
      (query_cache_invalidate ctx t).2.current_size ≤ ctx.current_size ∧
      (query_cache_invalidate ctx t).2.max_entries = ctx.max_entries ∧
      (query_cache_invalidate ctx t).2.max_size = ctx.max_size ∧
      (query_cache_invalidate ctx t).2.default_ttl = ctx.default_ttl := by
  obtain ⟨hc, hs⟩ := h
  have hwf := invScan_wf t ctx.entries
  rcases hscan : invScan t ctx.entries with ⟨kept, rc, rs⟩
  rw [hscan] at hwf
  simp only at hwf
  simp only [query_cache_invalidate, hscan]
  refine ⟨⟨?_, ?_⟩, ?_, ?_, by simp, by simp, by simp⟩
  · show ctx.entry_count - rc = kept.length
    omega
  · show ctx.current_size - rs = sumSizes kept
    omega
  · exact Nat.sub_le _ _
  · exact Nat.sub_le _ _

theorem clear_preserves (ctx : QueryCacheContext) (h : Wf ctx) :
    Wf (query_cache_clear ctx).2 ∧
      (query_cache_clear ctx).2.entry_count = 0 ∧
      (query_cache_clear ctx).2.current_size = 0 ∧
      (query_cache_clear ctx).2.max_entries = ctx.max_entries ∧
      (query_cache_clear ctx).2.max_size = ctx.max_size ∧
      (query_cache_clear ctx).2.default_ttl = ctx.default_ttl := by
  obtain ⟨hc, hs⟩ := h
  simp only [query_cache_clear]
  refine ⟨⟨?_, ?_⟩, ?_, ?_, by simp, by simp, by simp⟩
  · show ctx.entry_count - ctx.entries.length = List.length ([] : List CacheEntry)
    simp [hc]
  · show ctx.current_size - sumSizes ctx.entries = sumSizes []
    simp [hs, sumSizes]
  · show ctx.entry_count - ctx.entries.length = 0
    simp [hc]
  · show ctx.current_size - sumSizes ctx.entries = 0
    simp [hs]

theorem reachable_inv (ctx : QueryCacheContext) (h : Reachable ctx) :
    Wf ctx ∧ ctx.entry_count ≤ ctx.max_entries ∧ ctx.current_size ≤ ctx.max_size ∧
      ctx.max_entries = 1000 ∧ ctx.max_size = 1024 * 1024 * 64 ∧
      ctx.default_ttl = 3600 := by
  induction h with
  | create =>
    refine ⟨⟨rfl, rfl⟩, ?_, ?_, rfl, rfl, rfl⟩ <;> simp [query_cache_create_context]
  | @get now q ctx0 hr ih =>
    obtain ⟨hwf, hce, hcs, hme, hms, httl⟩ := ih
    obtain ⟨hwf', hce', hcs', hme', hms', httl'⟩ := get_preserves ctx0 now q hwf
    exact ⟨hwf', by omega, by omega, by omega, by omega, by omega⟩
  | @put now q r ctx0 hr ih =>
    obtain ⟨hwf, hce, hcs, hme, hms, httl⟩ := ih
    obtain ⟨hwf', hce', hcs'⟩ := add_preserves ctx0 (mkEntry now q r) hwf
    obtain ⟨hme', hms', httl'⟩ := add_config ctx0 (mkEntry now q r)
    have h2 : (query_cache_put ctx0 now q r).2 = add_cache_entry ctx0 (mkEntry now q r) :=
      rfl
    rw [h2]
    exact ⟨hwf', by omega, by omega, by omega, by omega, by omega⟩
  | @invalidate t ctx0 hr ih =>
    obtain ⟨hwf, hce, hcs, hme, hms, httl⟩ := ih
    obtain ⟨hwf', hce', hcs', hme', hms', httl'⟩ := invalidate_preserves ctx0 t hwf
    exact ⟨hwf', by omega, by omega, by omega, by omega, by omega⟩
  | @clear ctx0 hr ih =>
    obtain ⟨hwf, hce, hcs, hme, hms, httl⟩ := ih
    obtain ⟨hwf', hce', hcs', hme', hms', httl'⟩ := clear_preserves ctx0 hwf
    exact ⟨hwf', by omega, by omega, by omega, by omega, by omega⟩

theorem put_inserts (ctx : QueryCacheContext) (now : Nat) (q r : Bytes) (h : Wf ctx)
    (hmax : 1 ≤ ctx.max_entries)
    (hsz : entrySize (mkEntry now q r) ≤ ctx.max_size) :
    ∃ tail, (query_cache_put ctx now q r).2.entries = mkEntry now q r :: tail ∧
      (∀ x ∈ tail, x ∈ ctx.entries) ∧
      (query_cache_put ctx now q r).2.default_ttl = ctx.default_ttl := by
  obtain ⟨hc, hs⟩ := h
  rcases hev : evictGo ctx.max_entries ctx.max_size (entrySize (mkEntry now q r))
      ctx.entries.reverse ctx.entry_count ctx.current_size with ⟨revl, c', s', ins⟩
  have hins : ins = true := by
    have hroom := evictGo_insertsOfRoom ctx.max_entries ctx.max_size
        (entrySize (mkEntry now q r)) hmax hsz ctx.entries.reverse
        ctx.entry_count ctx.current_size (by simp [hc]) (by rw [hs, sumSizes_reverse])
    rw [hev] at hroom
    exact hroom
  subst hins
  have hsuf := evictGo_suffix ctx.max_entries ctx.max_size (entrySize (mkEntry now q r))
      ctx.entries.reverse ctx.entry_count ctx.current_size
  rw [hev] at hsuf
  simp only at hsuf
  obtain ⟨k, hk⟩ := hsuf
  refine ⟨revl.reverse, ?_, ?_, ?_⟩
  · simp [query_cache_put, add_cache_entry, hev]
  · intro x hx
    rw [List.mem_reverse, hk] at hx
    have hx2 : x ∈ ctx.entries.reverse := List.drop_subset k ctx.entries.reverse hx
    rwa [List.mem_reverse] at hx2
  · simp [query_cache_put, add_cache_entry, hev]

theorem add_entries_front (ctx : QueryCacheContext) (e : CacheEntry) :
    ∃ pfx, pfx <+: ctx.entries ∧
      ((add_cache_entry ctx e).entries = e :: pfx ∨
        (add_cache_entry ctx e).entries = pfx) := by
  rcases hev : evictGo ctx.max_entries ctx.max_size (entrySize e)
      ctx.entries.reverse ctx.entry_count ctx.current_size with ⟨revl, c', s', ins⟩
  have hsuf := evictGo_suffix ctx.max_entries ctx.max_size (entrySize e)
      ctx.entries.reverse ctx.entry_count ctx.current_size
  rw [hev] at hsuf
  simp only at hsuf
  obtain ⟨k, hk⟩ := hsuf
  have hpfx : revl.reverse <+: ctx.entries := by
    have h1 : revl <:+ ctx.entries.reverse := by
      rw [hk]
      exact List.drop_suffix k ctx.entries.reverse
    have h2 := List.reverse_prefix.mpr h1
    simpa using h2
  cases ins
  · exact ⟨revl.reverse, hpfx, Or.inr (by simp [add_cache_entry, hev])⟩
  · exact ⟨revl.reverse, hpfx, Or.inl (by simp [add_cache_entry, hev])⟩

theorem get_fresh_head (ctx' : QueryCacheContext) (now : Nat) (q r : Bytes)
    (rest : List CacheEntry) (h : ctx'.entries = mkEntry now q r :: rest) :
    (query_cache_get ctx' now q).1 = some r := by
  have hscan : findScan ctx'.default_ttl now q ctx'.entries
      = (some (bumpEntry now (mkEntry now q r)), rest, 0, 0) := by
    rw [h]
    simp only [findScan, mkEntry_notExpired, matchesQuery_mkEntry, Bool.false_eq_true,
      if_false, if_true]
  simp only [query_cache_get, find_cache_entry, hscan]
  rfl

/-- C1 (counterexample): the claim conditions the hit-after-put guarantee only
on the RESULT's size not exceeding `maxSize`.  On a freshly created (hence
reachable) cache, putting a 64 MiB + 1 query with an empty result — the
result's size, 0, does not exceed `maxSize` — is silently dropped because the
guard in `add_cache_entry` charges query length plus result length plus
`sizeof(CacheEntry)`; the immediate `get` misses. -/
theorem hit_after_put_cex :
    ([] : Bytes).length ≤ query_cache_create_context.max_size ∧
    Reachable query_cache_create_context ∧
    (query_cache_get
      (query_cache_put query_cache_create_context 0 (List.replicate 67108865 0) []).2
      0 (List.replicate 67108865 0)).1 = none := by
  refine ⟨by simp [query_cache_create_context], Reachable.create, ?_⟩
  have hes : entrySize (mkEntry 0 (List.replicate 67108865 0) []) = 67108937 := by
    rw [entrySize_mkEntry, List.length_replicate]
    rfl
  have hev : evictGo query_cache_create_context.max_entries
      query_cache_create_context.max_size
      (entrySize (mkEntry 0 (List.replicate 67108865 0) []))
      query_cache_create_context.entries.reverse
      query_cache_create_context.entry_count
      query_cache_create_context.current_size
      = ([], 0, 0, false) := by
    rw [hes]
    show evictGo 1000 67108864 67108937 [] 0 0 = ([], 0, 0, false)
    rw [evictGo]
    rw [if_pos (Or.inr (by norm_num))]
  have hput : (query_cache_put query_cache_create_context 0
      (List.replicate 67108865 0) []).2 = query_cache_create_context := by
    simp only [query_cache_put]
    rw [add_cache_entry, hev]
    rfl
  rw [hput]
  rfl

/-- C1 (amended): for every reachable cache state, `put(q, r)` followed
immediately by `get(q)` at the same clock reading returns `r`, unless the
incoming ENTRY's size — query length + result length + `sizeof(CacheEntry)` —
exceeds `maxSize` (allocations always succeed in the model). -/
theorem hit_after_put (ctx : QueryCacheContext) (h : Reachable ctx) (now : Nat)
    (q r : Bytes)
    (hsz : q.length + r.length + sizeofCacheEntry ≤ ctx.max_size) :
    (query_cache_get (query_cache_put ctx now q r).2 now q).1 = some r := by
  obtain ⟨hwf, _, _, hme, _, _⟩ := reachable_inv ctx h
  obtain ⟨tail, hent, hmem, httl⟩ := put_inserts ctx now q r hwf (by omega)
    (by rw [entrySize_mkEntry]; omega)
  exact get_fresh_head _ now q r tail hent

/-- C1 (witness): on a fresh context, `put([65], [7])` then `get([65])` at
time 0 returns `[7]`. -/
theorem hit_after_put_witness :
    (query_cache_get (query_cache_put query_cache_create_context 0 [65] [7]).2
      0 [65]).1 = some [7] :=
  hit_after_put query_cache_create_context Reachable.create 0 [65] [7] (by decide)

/-- C2: in every state reachable from a freshly created context — in
particular after every `put` — `entry_count ≤ max_entries` and
`current_size ≤ max_size` hold (the eviction loop in `add_cache_entry`
removes tail entries until both bounds admit the incoming entry or the
collection is empty). -/
theorem capacity_bound (ctx : QueryCacheContext) (h : Reachable ctx) :
    ctx.entry_count ≤ ctx.max_entries ∧ ctx.current_size ≤ ctx.max_size := by
  obtain ⟨_, h1, h2, _⟩ := reachable_inv ctx h
  exact ⟨h1, h2⟩

/-- C2 (witness): the bound instantiated at the freshly created context. -/
theorem capacity_bound_witness :
    query_cache_create_context.entry_count ≤ query_cache_create_context.max_entries ∧
      query_cache_create_context.current_size ≤ query_cache_create_context.max_size :=
  capacity_bound query_cache_create_context Reachable.create

/-- C3 (counterexample): the claim says a query at time ≥ t + defaultTTL is a
MISS.  But the expiry test is strict (`now - created > ttl`), so an entry
inserted at time 0 into a fresh cache (defaultTTL = 3600) still HITs at
time exactly 3600. -/
theorem ttl_expiry_cex :
    query_cache_create_context.default_ttl = 3600 ∧
    (query_cache_get (query_cache_put query_cache_create_context 0 [65] [7]).2
      3600 [65]).1 = some [7] := by
  exact ⟨rfl, by decide⟩

/-- C3 (amended): an entry inserted at time t (into a reachable cache holding
no other entry matching q, with the entry small enough to be stored) is a MISS
when queried at any time STRICTLY GREATER than t + defaultTTL, and a HIT at
any time ≤ t + defaultTTL — the boundary instant t + defaultTTL still hits. -/
theorem ttl_expiry (ctx : QueryCacheContext) (h : Reachable ctx) (t now : Nat)
    (q r : Bytes)
    (hsz : q.length + r.length + sizeofCacheEntry ≤ ctx.max_size)
    (hnodup : ∀ e ∈ ctx.entries, matchesQuery e q = false) :
    (t + ctx.default_ttl < now →
      (query_cache_get (query_cache_put ctx t q r).2 now q).1 = none) ∧
    (now ≤ t + ctx.default_ttl →
      (query_cache_get (query_cache_put ctx t q r).2 now q).1 = some r) := by
  obtain ⟨hwf, _, _, hme, _, _⟩ := reachable_inv ctx h
  obtain ⟨tail, hent, hmem, httl⟩ := put_inserts ctx t q r hwf (by omega)
    (by rw [entrySize_mkEntry]; omega)
  constructor
  · intro hlt
    have hexp : entryExpired (query_cache_put ctx t q r).2.default_ttl now
        (mkEntry t q r) = true := by
      simp only [entryExpired, mkEntry, httl, decide_eq_true_eq]
      omega
    have hnone := findScan_none_ofNoMatch (query_cache_put ctx t q r).2.default_ttl
        now q tail (fun e he => hnodup e (hmem e he))
    rcases hrec : findScan (query_cache_put ctx t q r).2.default_ttl now q tail
        with ⟨rr, l', c, s⟩
    rw [hrec] at hnone
    simp only at hnone
    subst hnone
    have hscan : findScan (query_cache_put ctx t q r).2.default_ttl now q
        ((query_cache_put ctx t q r).2).entries
        = (none, l', c + 1, s + entrySize (mkEntry t q r)) := by
      rw [hent]
      simp only [findScan, hexp, if_true, hrec]
    simp only [query_cache_get, find_cache_entry, hscan]
  · intro hle
    have hexp : entryExpired (query_cache_put ctx t q r).2.default_ttl now
        (mkEntry t q r) = false := by
      simp only [entryExpired, mkEntry, httl, decide_eq_false_iff_not]
      omega
    have hscan : findScan (query_cache_put ctx t q r).2.default_ttl now q
        ((query_cache_put ctx t q r).2).entries
        = (some (bumpEntry now (mkEntry t q r)), tail, 0, 0) := by
      rw [hent]
      simp only [findScan, hexp, matchesQuery_mkEntry, Bool.false_eq_true,
        if_false, if_true]
    simp only [query_cache_get, find_cache_entry, hscan]
    rfl

/-- C3 (witness): on a fresh context an entry put at time 0 misses at 3601
and still hits at 3600. -/
theorem ttl_expiry_witness :
    (query_cache_get (query_cache_put query_cache_create_context 0 [65] [7]).2
      3601 [65]).1 = none ∧
    (query_cache_get (query_cache_put query_cache_create_context 0 [65] [7]).2
      3600 [65]).1 = some [7] :=
  ⟨(ttl_expiry query_cache_create_context Reachable.create 0 3601 [65] [7]
      (by decide) (by decide)).1 (by decide),
   (ttl_expiry query_cache_create_context Reachable.create 0 3600 [65] [7]
      (by decide) (by decide)).2 (by decide)⟩

/-- C4: capacity eviction only ever removes entries from the tail (the result
list of `add_cache_entry` is the new entry consed onto a prefix of the old
order, or a prefix when the entry is dropped); and concretely with
`max_entries = 2`: inserting A, B, C evicts A (get(A) misses, get(B) and
get(C) hit), while inserting A, B, then hitting A, then inserting C evicts B
and not A. -/
theorem lru_eviction_and_promotion :
    (∀ (ctx : QueryCacheContext) (e : CacheEntry), ∃ pfx, pfx <+: ctx.entries ∧
        ((add_cache_entry ctx e).entries = e :: pfx ∨
          (add_cache_entry ctx e).entries = pfx)) ∧
    ((query_cache_get (query_cache_put (query_cache_put (query_cache_put ctxTwo
        0 [65] [1]).2 0 [66] [2]).2 0 [67] [3]).2 0 [65]).1 = none ∧
      (query_cache_get (query_cache_put (query_cache_put (query_cache_put ctxTwo
        0 [65] [1]).2 0 [66] [2]).2 0 [67] [3]).2 0 [66]).1 = some [2] ∧
      (query_cache_get (query_cache_put (query_cache_put (query_cache_put ctxTwo
        0 [65] [1]).2 0 [66] [2]).2 0 [67] [3]).2 0 [67]).1 = some [3]) ∧
    ((query_cache_get (query_cache_put (query_cache_get (query_cache_put
        (query_cache_put ctxTwo 0 [65] [1]).2 0 [66] [2]).2 0 [65]).2
        0 [67] [3]).2 0 [66]).1 = none ∧
      (query_cache_get (query_cache_put (query_cache_get (query_cache_put
        (query_cache_put ctxTwo 0 [65] [1]).2 0 [66] [2]).2 0 [65]).2
        0 [67] [3]).2 0 [65]).1 = some [1] ∧
      (query_cache_get (query_cache_put (query_cache_get (query_cache_put
        (query_cache_put ctxTwo 0 [65] [1]).2 0 [66] [2]).2 0 [65]).2
        0 [67] [3]).2 0 [67]).1 = some [3]) :=
  ⟨add_entries_front, by decide, by decide⟩

/-- C5: when the incoming entry alone exceeds `max_size`, the eviction loop
empties the collection, the entry is discarded without insertion, `put` still
returns the success status 0, and the resulting cache holds nothing. -/
theorem too_large_dropped (ctx : QueryCacheContext) (h : Wf ctx) (now : Nat)
    (q r : Bytes)
    (hbig : ctx.max_size < q.length + r.length + sizeofCacheEntry) :
    (query_cache_put ctx now q r).1 = 0 ∧
      ((query_cache_put ctx now q r).2).entries = [] ∧
      ((query_cache_put ctx now q r).2).entry_count = 0 ∧
      ((query_cache_put ctx now q r).2).current_size = 0 := by
  obtain ⟨hc, hs⟩ := h
  rcases hev : evictGo ctx.max_entries ctx.max_size (entrySize (mkEntry now q r))
      ctx.entries.reverse ctx.entry_count ctx.current_size with ⟨revl, c', s', ins⟩
  have hf : ins = false := by
    have hdrop := evictGo_dropsOfTooBig ctx.max_entries ctx.max_size
        (entrySize (mkEntry now q r)) (by rw [entrySize_mkEntry]; omega)
        ctx.entries.reverse ctx.entry_count ctx.current_size
    rw [hev] at hdrop
    exact hdrop
  subst hf
  have hnil := evictGo_dropNil ctx.max_entries ctx.max_size
      (entrySize (mkEntry now q r)) ctx.entries.reverse ctx.entry_count
      ctx.current_size (by rw [hev])
  rw [hev] at hnil
  simp only at hnil
  subst hnil
  have hwf := evictGo_wf ctx.max_entries ctx.max_size (entrySize (mkEntry now q r))
      ctx.entries.reverse ctx.entry_count ctx.current_size
      (by simp [hc]) (by rw [hs, sumSizes_reverse])
  rw [hev] at hwf
  simp only at hwf
  obtain ⟨h1, h2⟩ := hwf
  simp only [List.length_nil] at h1
  refine ⟨rfl, ?_, ?_, ?_⟩ <;>
    simp [query_cache_put, add_cache_entry, hev, h1, h2, sumSizes]

/-- C5 (witness): a context with `max_size = 10` drops even an empty put
(overhead 72 > 10) while reporting success and ending empty. -/
theorem too_large_dropped_witness :
    (query_cache_put { query_cache_create_context with max_size := 10 } 0 [] []).1
        = 0 ∧
      ((query_cache_put { query_cache_create_context with max_size := 10 }
        0 [] []).2).entries = [] ∧
      ((query_cache_put { query_cache_create_context with max_size := 10 }
        0 [] []).2).entry_count = 0 ∧
      ((query_cache_put { query_cache_create_context with max_size := 10 }
        0 [] []).2).current_size = 0 :=
  too_large_dropped { query_cache_create_context with max_size := 10 }
    ⟨rfl, rfl⟩ 0 [] [] (by decide)

/-- C6: during a `get` scan every encountered entry older than `default_ttl`
is evicted: on a miss the whole list was scanned and the post-state is exactly
the old list with every expired entry removed; on a hit the post-state is the
bumped match at the head, the scanned prefix with its expired entries removed,
and the unscanned suffix untouched. -/
theorem get_lazy_expiry (ctx : QueryCacheContext) (now : Nat) (q : Bytes) :
    ((query_cache_get ctx now q).1 = none →
      ((query_cache_get ctx now q).2).entries =
        ctx.entries.filter (fun x => ! entryExpired ctx.default_ttl now x)) ∧
    (∀ v, (query_cache_get ctx now q).1 = some v →
      ∃ pre e₀ suf, ctx.entries = pre ++ e₀ :: suf ∧
        entryExpired ctx.default_ttl now e₀ = false ∧
        ((query_cache_get ctx now q).2).entries =
          bumpEntry now e₀ ::
            (pre.filter (fun x => ! entryExpired ctx.default_ttl now x) ++ suf)) := by
  rcases hscan : findScan ctx.default_ttl now q ctx.entries with ⟨r, others, rc, rs⟩
  cases r with
  | none =>
    have hfil := findScan_none_filter ctx.default_ttl now q ctx.entries (by rw [hscan])
    rw [hscan] at hfil
    simp only at hfil
    constructor
    · intro _
      simp only [query_cache_get, find_cache_entry, hscan]
      exact hfil
    · intro v hv
      simp only [query_cache_get, find_cache_entry, hscan] at hv
      exact absurd hv (by simp)
  | some e =>
    obtain ⟨pre, e₀, suf, hsplit, hexp, hmatch, hbump, hres⟩ :=
      findScan_some_split ctx.default_ttl now q ctx.entries e (by rw [hscan])
    rw [hscan] at hres
    simp only at hres
    constructor
    · intro hn
      simp only [query_cache_get, find_cache_entry, hscan] at hn
      exact absurd hn (by simp)
    · intro v hv
      refine ⟨pre, e₀, suf, hsplit, hexp, ?_⟩
      simp only [query_cache_get, find_cache_entry, hscan]
      rw [hres, hbump]

/-- C6 (witness): a `get` that misses on a context whose two entries are both
expired leaves exactly the filtered (empty) entry list. -/
theorem get_lazy_expiry_witness :
    ((query_cache_get ctxExpiredDemo 10 [99]).2).entries =
      ctxExpiredDemo.entries.filter
        (fun x => ! entryExpired ctxExpiredDemo.default_ttl 10 x) :=
  (get_lazy_expiry ctxExpiredDemo 10 [99]).1 (by decide)

/-- C7 (counterexample): `[66]` is a byte-wise substring of the stored key
`[65, 0, 66]`, yet `invalidate([66])` removes nothing, because `strstr`
reads the stored key as a C string and stops at the embedded NUL. -/
theorem invalidate_substring_cex :
    strstrHit [65, 0, 66] [66] = true ∧
    ((query_cache_invalidate
        (query_cache_put query_cache_create_context 0 [65, 0, 66] [1]).2
        [66]).2).entries =
      ((query_cache_put query_cache_create_context 0 [65, 0, 66] [1]).2).entries ∧
    ((query_cache_put query_cache_create_context 0 [65, 0, 66] [1]).2).entry_count
      = 1 := by
  exact ⟨by decide, by decide, by decide⟩

/-- C7 (amended): `invalidate(t)` removes exactly those entries whose stored
key, read as a NUL-terminated C string (truncated at the first NUL byte),
contains t (similarly truncated) as a contiguous byte substring; in
particular, with the orders and users queries cached, invalidating "orders"
removes only the orders entry and the users entry still hits. -/
theorem invalidate_substring :
    (∀ (ctx : QueryCacheContext) (t : Bytes),
      ((query_cache_invalidate ctx t).2).entries =
        ctx.entries.filter (fun e => ! entryMatchesTable t e)) ∧
    ((query_cache_get (query_cache_invalidate ctxOrdersUsers ordersTable).2
        0 usersQuery).1 = some [2] ∧
      (query_cache_get (query_cache_invalidate ctxOrdersUsers ordersTable).2
        0 ordersQuery).1 = none ∧
      ((query_cache_invalidate ctxOrdersUsers ordersTable).2).entry_count = 1) := by
  constructor
  · intro ctx t
    have hfil := invScan_filter t ctx.entries
    rcases hscan : invScan t ctx.entries with ⟨kept, rc, rs⟩
    rw [hscan] at hfil
    simp only at hfil
    simp only [query_cache_invalidate, hscan]
    exact hfil
  · exact ⟨by decide, by decide, by decide⟩

/-- C8: `put` never deduplicates — putting the same key twice (when no
eviction triggers) leaves two independent entries, the newer in front of the
older, and an immediate `get` returns the newer result, the first match found
scanning from the head. -/
theorem no_dedup (ctx : QueryCacheContext) (now : Nat) (q r1 r2 : Bytes)
    (hcnt : ctx.entry_count + 1 < ctx.max_entries)
    (hsz : ctx.current_size + entrySize (mkEntry now q r1)
      + entrySize (mkEntry now q r2) ≤ ctx.max_size) :
    ((query_cache_put (query_cache_put ctx now q r1).2 now q r2).2).entries =
      mkEntry now q r2 :: mkEntry now q r1 :: ctx.entries ∧
    (query_cache_get ((query_cache_put (query_cache_put ctx now q r1).2
      now q r2).2) now q).1 = some r2 := by
  have h1 : (query_cache_put ctx now q r1).2 =
      { ctx with entries := mkEntry now q r1 :: ctx.entries
                 entry_count := ctx.entry_count + 1
                 current_size := ctx.current_size + entrySize (mkEntry now q r1) } := by
    show add_cache_entry ctx (mkEntry now q r1) = _
    have hev := evictGo_noEvict ctx.max_entries ctx.max_size
        (entrySize (mkEntry now q r1)) ctx.entries.reverse ctx.entry_count
        ctx.current_size (by push_neg; omega)
    simp [add_cache_entry, hev]
  have h2 : (query_cache_put (query_cache_put ctx now q r1).2 now q r2).2 =
      { ctx with entries := mkEntry now q r2 :: mkEntry now q r1 :: ctx.entries
                 entry_count := ctx.entry_count + 1 + 1
                 current_size := ctx.current_size + entrySize (mkEntry now q r1)
                   + entrySize (mkEntry now q r2) } := by
    rw [h1]
    show add_cache_entry _ (mkEntry now q r2) = _
    have hev := evictGo_noEvict ctx.max_entries ctx.max_size
        (entrySize (mkEntry now q r2))
        (ctx.entries.reverse ++ [mkEntry now q r1]) (ctx.entry_count + 1)
        (ctx.current_size + entrySize (mkEntry now q r1)) (by push_neg; omega)
    simp [add_cache_entry, hev]
  rw [h2]
  refine ⟨rfl, ?_⟩
  exact get_fresh_head _ now q r2 (mkEntry now q r1 :: ctx.entries) rfl

/-- C8 (witness): two puts of key `[65]` on a fresh context keep both entries
and `get` returns the second result `[2]`. -/
theorem no_dedup_witness :
    ((query_cache_put (query_cache_put query_cache_create_context 0 [65] [1]).2
        0 [65] [2]).2).entries =
      mkEntry 0 [65] [2] :: mkEntry 0 [65] [1] ::
        query_cache_create_context.entries ∧
    (query_cache_get ((query_cache_put (query_cache_put
        query_cache_create_context 0 [65] [1]).2 0 [65] [2]).2) 0 [65]).1
      = some [2] :=
  no_dedup query_cache_create_context 0 [65] [1] [2] (by decide) (by decide)

/-- C9: `query_cache_destroy_context` checks its handle for NULL and is a
safe no-op on a NULL handle, while `get`, `put`, `invalidate` and `clear`
dereference the handle unconditionally and fault (undefined behavior,
modelled as `Except.error`) on a NULL handle. -/
theorem destroy_null_safe :
    query_cache_destroy_context none = Except.ok () ∧
    (∀ (now : Nat) (q : Bytes),
      query_cache_get_h none now q = Except.error ()) ∧
    (∀ (now : Nat) (q r : Bytes),
      query_cache_put_h none now q r = Except.error ()) ∧
    (∀ (t : Bytes), query_cache_invalidate_h none t = Except.error ()) ∧
    query_cache_clear_h none = Except.error () :=
  ⟨rfl, fun _ _ => rfl, fun _ _ _ => rfl, fun _ => rfl, rfl⟩

/-- C10: `invalidate` performs no TTL expiry and always returns 0: the
post-state is exactly the old list filtered by the substring test — a test
that never consults any clock — so every non-matching entry (expired or not)
survives as the identical record (same timestamps, access count and relative
position). -/
theorem invalidate_frame (ctx : QueryCacheContext) (t : Bytes) :
    (query_cache_invalidate ctx t).1 = 0 ∧
    ((query_cache_invalidate ctx t).2).entries =
      ctx.entries.filter (fun e => ! entryMatchesTable t e) ∧
    ∀ e ∈ ctx.entries, entryMatchesTable t e = false →
      e ∈ ((query_cache_invalidate ctx t).2).entries := by
  have hfil := invScan_filter t ctx.entries
  rcases hscan : invScan t ctx.entries with ⟨kept, rc, rs⟩
  rw [hscan] at hfil
  simp only at hfil
  refine ⟨by simp [query_cache_invalidate, hscan], ?_, ?_⟩
  · simp only [query_cache_invalidate, hscan]
    exact hfil
  · intro e he hnm
    simp only [query_cache_invalidate, hscan]
    rw [hfil, List.mem_filter]
    exact ⟨he, by simp [hnm]⟩

/-- C10 (witness): after invalidating "orders", the users entry — the exact
record created by its put — is still present. -/
theorem invalidate_frame_witness :
    mkEntry 0 usersQuery [2] ∈
      ((query_cache_invalidate ctxOrdersUsers ordersTable).2).entries :=
  (invalidate_frame ctxOrdersUsers ordersTable).2.2
    (mkEntry 0 usersQuery [2]) (by decide) (by decide)

end QueryCachePlugin
